import Mathlib

/-!
Verification of the readline line-editing engine:
a shallow embedding of `runeutil.RuneBuffer` (src/unnamed/part_000) and of the
`Terminal.ioloop` byte-dispatch loop (src/v2/terminal.go), with theorems about
the editing operations, buffer invariants and the escape accumulation logic.

Runes are modelled as `Char`, rune slices as `List Char`, raw input bytes as
`Nat`, Go `int` as `Int` where negative values matter.  Go slice aliasing has
no value-level effect in this code (every mutation is modelled by the list
value the Go code leaves in the slice it stores back).
-/

namespace Readline

/-- NUL codepoint, the "no mask" sentinel (`rb.mask != 0` in Go). -/
def charNul : Char := Char.ofNat 0

/-- External collaborators of the Line Buffer (the spec's Width/Format Model):
display width, ANSI color stripping, wrap splitting, tab width and the
word-break predicate.  The core consumes them and is verified for every
instantiation. -/
structure Ext where
  wordBreak : Char → Bool
  widthAll : List Char → Nat
  colorFilter : List Char → List Char
  splitByLine : Nat → Int → List Char → List (List Char)
  tabWidth : Nat

/-- Modelled from the spec: `Copy` (runeutil helper, not included in src)
returns a fresh copy of the given runes (spec: kill spans are "copied, not
moved"); at the value level a copy is the same sequence. -/
def copyRunes (s : List Char) : List Char := s

/-- Modelled from the spec: `CopyAndGrow` (runeutil helper, not included in
src) returns a fresh copy of the runes with extra capacity reserved; capacity
has no value-level effect, so the value is the same sequence. -/
def copyAndGrow (s : List Char) (_extra : Nat) : List Char := s

/-- Value-level state of `runeutil.RuneBuffer`.  The `io.Writer`, mutex and
`hadClean`/`interactive` rendering flags are I/O plumbing: `Refresh(f)` always
runs `f` exactly once, so the editing semantics below are the bodies passed to
`Refresh`. -/
structure RBState where
  prompt : List Char
  promptWidth : Nat
  mask : Char
  screenWidth : Int
  idx : Nat
  buf : List Char
  backup : Option (List Char × Nat)
  lastKill : List Char
deriving DecidableEq

/-- Error kind of `setScreenWidth` (`ErrInvalidScreenWidth` wrapped with the
offending value). -/
inductive RBErr where
  | invalidScreenWidth (v : Int)
deriving DecidableEq

/-- RuneBuffer.pushKill: `rb.lastKill = Copy(s)`. -/
def pushKill (s : List Char) (rb : RBState) : RBState :=
  { rb with lastKill := copyRunes s }

/-- RuneBuffer.setScreenWidth: reject non-positive widths, otherwise store. -/
def setScreenWidth (v : Int) (rb : RBState) : RBState × Option RBErr :=
  if v ≤ 0 then (rb, some (RBErr.invalidScreenWidth v))
  else ({ rb with screenWidth := v }, none)

/-- NewRuneBuffer: set prompt (with its precomputed width), mask, then screen
width; a screen-width error aborts construction. -/
def newRuneBuffer (E : Ext) (prompt : List Char) (mask : Char) (screenWidth : Int) :
    Except RBErr RBState :=
  let rb0 : RBState :=
    { prompt := prompt
      promptWidth := E.widthAll (E.colorFilter prompt)
      mask := mask
      screenWidth := 0
      idx := 0
      buf := []
      backup := none
      lastKill := [] }
  match setScreenWidth screenWidth rb0 with
  | (_, some e) => Except.error e
  | (rb1, none) => Except.ok rb1

/-- RuneBuffer.WriteRunes:
`rem := buf[idx:]; tail := append(CopyAndGrow(s, len(rem)), rem...);
buf = append(buf[:idx], tail...); idx += len(s)`.
`CopyAndGrow` makes `tail` a fresh array, so the stored value is
`buf[:idx] ++ s ++ rem`. -/
def writeRunes (s : List Char) (rb : RBState) : RBState :=
  let rem := rb.buf.drop rb.idx
  let tail := copyAndGrow s rem.length ++ rem
  { rb with buf := rb.buf.take rb.idx ++ tail, idx := rb.idx + s.length }

/-- RuneBuffer.InsertRunes:
`buf = append(buf, s[copy(buf[idx:], s):]...)`.  The `copy` overwrites
`buf[idx:idx+n]` with `s[:n]` where `n = min(len(buf)-idx, len(s))`, then the
excess `s[n:]` is appended. -/
def insertRunes (s : List Char) (rb : RBState) : RBState :=
  let n := min (rb.buf.length - rb.idx) s.length
  let copied := rb.buf.take rb.idx ++ s.take n ++ rb.buf.drop (rb.idx + n)
  { rb with buf := copied ++ s.drop n, idx := rb.idx + s.length }

/-- RuneBuffer.MoveToLineStart. -/
def moveToLineStart (rb : RBState) : RBState × Bool :=
  if rb.idx = 0 then (rb, false) else ({ rb with idx := 0 }, true)

/-- RuneBuffer.MoveToLineEnd. -/
def moveToLineEnd (rb : RBState) : RBState × Bool :=
  if rb.idx = rb.buf.length then (rb, false)
  else ({ rb with idx := rb.buf.length }, true)

/-- RuneBuffer.MoveBackward. -/
def moveBackward (rb : RBState) : RBState × Bool :=
  if rb.idx = 0 then (rb, false) else ({ rb with idx := rb.idx - 1 }, true)

/-- RuneBuffer.MoveForward. -/
def moveForward (rb : RBState) : RBState × Bool :=
  if rb.idx = rb.buf.length then (rb, false)
  else ({ rb with idx := rb.idx + 1 }, true)

/-- The word-boundary test `!IsWordBreak(buf[i]) && IsWordBreak(buf[i-1])`
shared by the word-motion and word-kill loops (positions are used with
`1 ≤ i < len buf`; out-of-range reads return the NUL default). -/
def wordBoundary (E : Ext) (buf : List Char) (i : Nat) : Bool :=
  !E.wordBreak (buf.getD i charNul) && E.wordBreak (buf.getD (i - 1) charNul)

/-- The descending scan `for i := start; i > 0; i--` of MoveToPrevWord and
KillWordFront: the largest `i ≤ start` with `wordBoundary i`, else 0. -/
def scanPrev (E : Ext) (buf : List Char) : Nat → Nat
  | 0 => 0
  | i + 1 => if wordBoundary E buf (i + 1) then i + 1 else scanPrev E buf i

/-- The ascending scan `for i := start; i < len(buf); i++` of MoveToNextWord
and KillWord: the smallest in-range `i ≥ start` with `wordBoundary i`, else
`len buf`. -/
def scanNext (E : Ext) (buf : List Char) (i : Nat) : Nat :=
  if i < buf.length then
    if wordBoundary E buf i then i else scanNext E buf (i + 1)
  else buf.length
termination_by buf.length - i

/-- RuneBuffer.MoveToPrevWord: fails at index 0, otherwise scans backward from
`idx-1` and always reports success. -/
def moveToPrevWord (E : Ext) (rb : RBState) : RBState × Bool :=
  if rb.idx = 0 then (rb, false)
  else ({ rb with idx := scanPrev E rb.buf (rb.idx - 1) }, true)

/-- RuneBuffer.MoveToNextWord: scans forward from `idx+1`, clamping to the
buffer end, and always reports success. -/
def moveToNextWord (E : Ext) (rb : RBState) : RBState × Bool :=
  ({ rb with idx := scanNext E rb.buf (rb.idx + 1) }, true)

/-- The ascending scan of MoveToEndWord
(`IsWordBreak(buf[i]) && !IsWordBreak(buf[i-1])` selects `i-1`). -/
def scanEndWord (E : Ext) (buf : List Char) (i : Nat) : Nat :=
  if i < buf.length then
    if E.wordBreak (buf.getD i charNul) && !E.wordBreak (buf.getD (i - 1) charNul) then
      i - 1
    else scanEndWord E buf (i + 1)
  else buf.length
termination_by buf.length - i

/-- RuneBuffer.MoveToEndWord.  Note the Go guard reads `buf[idx+1]`, which is
out of range when `idx = len-1` (a latent panic); the embedding reads the NUL
default there, which does not affect the cursor bound. -/
def moveToEndWord (E : Ext) (rb : RBState) : RBState × Bool :=
  if rb.idx = rb.buf.length then (rb, false)
  else
    let idx1 :=
      if !E.wordBreak (rb.buf.getD rb.idx charNul) &&
          E.wordBreak (rb.buf.getD (rb.idx + 1) charNul) then rb.idx + 1
      else rb.idx
    ({ rb with idx := scanEndWord E rb.buf (idx1 + 1) }, true)

/-- The descending search of MoveTo (reverse): first `i` from `start` down to
0 with `buf[i] = ch`. -/
def findRevAux (buf : List Char) (ch : Char) : Nat → Option Nat
  | 0 => if buf.getD 0 charNul = ch then some 0 else none
  | i + 1 =>
    if buf.getD (i + 1) charNul = ch then some (i + 1) else findRevAux buf ch i

/-- The ascending search of MoveTo (forward): first `i < len buf` from `start`
with `buf[i] = ch`. -/
def findFwdAux (buf : List Char) (ch : Char) (i : Nat) : Option Nat :=
  if i < buf.length then
    if buf.getD i charNul = ch then some i else findFwdAux buf ch (i + 1)
  else none
termination_by buf.length - i

/-- RuneBuffer.MoveTo: search a literal codepoint from the cursor; on a match
land on it, or one step past it toward the cursor when `prevChar`. -/
def moveTo (ch : Char) (prevChar reverse : Bool) (rb : RBState) : RBState × Bool :=
  if reverse then
    if rb.idx = 0 then (rb, false)
    else
      match findRevAux rb.buf ch (rb.idx - 1) with
      | some i => ({ rb with idx := if prevChar then i + 1 else i }, true)
      | none => (rb, false)
  else
    match findFwdAux rb.buf ch (rb.idx + 1) with
    | some i => ({ rb with idx := if prevChar then i - 1 else i }, true)
    | none => (rb, false)

/-- RuneBuffer.Backspace: `idx--; buf = append(buf[:idx], buf[idx+1:]...)`. -/
def backspace (rb : RBState) : RBState × Bool :=
  if rb.idx = 0 then (rb, false)
  else
    ({ rb with idx := rb.idx - 1
               buf := rb.buf.take (rb.idx - 1) ++ rb.buf.drop rb.idx }, true)

/-- RuneBuffer.Transpose: clamp `idx` to `len-1`, swap `idx-1` and `idx`,
advance. -/
def transpose (rb : RBState) : RBState × Bool :=
  if rb.buf.length ≤ 1 then (rb, false)
  else if rb.idx = 0 then (rb, false)
  else
    let i := if rb.buf.length ≤ rb.idx then rb.buf.length - 1 else rb.idx
    let a := rb.buf.getD (i - 1) charNul
    let b := rb.buf.getD i charNul
    ({ rb with buf := (rb.buf.set i a).set (i - 1) b, idx := i + 1 }, true)

/-- RuneBuffer.Erase: cursor to 0, push the whole buffer to the kill slot,
clear. -/
def erase (rb : RBState) : RBState × Bool :=
  if rb.buf.length = 0 then (rb, false)
  else (pushKill rb.buf { rb with idx := 0, buf := [] }, true)

/-- RuneBuffer.Delete: push `buf[idx:idx+1]` to the kill slot, remove it. -/
def delete (rb : RBState) : RBState × Bool :=
  if rb.idx = rb.buf.length then (rb, false)
  else
    (pushKill ((rb.buf.drop rb.idx).take 1)
      { rb with buf := rb.buf.take rb.idx ++ rb.buf.drop (rb.idx + 1) }, true)

/-- The leading loop of KillWord
(`for init < len(buf) && IsWordBreak(buf[init]) { init++ }`). -/
def skipWordBreaks (E : Ext) (buf : List Char) (i : Nat) : Nat :=
  if i < buf.length then
    if E.wordBreak (buf.getD i charNul) then skipWordBreaks E buf (i + 1) else i
  else i
termination_by buf.length - i

/-- RuneBuffer.KillWord: skip leading break characters, scan for the next
boundary `i`; kill `buf[idx:i-1]` when found, else `buf[idx:]`. -/
def killWord (E : Ext) (rb : RBState) : RBState × Bool :=
  if rb.idx = rb.buf.length then (rb, false)
  else
    let init := skipWordBreaks E rb.buf rb.idx
    let j := scanNext E rb.buf (init + 1)
    if j < rb.buf.length then
      (pushKill ((rb.buf.drop rb.idx).take (j - 1 - rb.idx))
        { rb with buf := rb.buf.take rb.idx ++ rb.buf.drop (j - 1) }, true)
    else
      (pushKill (rb.buf.drop rb.idx) { rb with buf := rb.buf.take rb.idx }, true)

/-- RuneBuffer.KillWordFront: scan backward from `idx-1`; on a boundary `i`
push `buf[i:idx]` and splice it out, cursor to `i`; when the scan exhausts
(`scanPrev` returns 0) the Go code clears the whole buffer (`buf = buf[:0]`,
also dropping the tail after the cursor) and does not touch the kill slot. -/
def killWordFront (E : Ext) (rb : RBState) : RBState × Bool :=
  if rb.idx = 0 then (rb, false)
  else
    let i := scanPrev E rb.buf (rb.idx - 1)
    if i = 0 then ({ rb with buf := [], idx := 0 }, true)
    else
      (pushKill ((rb.buf.drop i).take (rb.idx - i))
        { rb with buf := rb.buf.take i ++ rb.buf.drop rb.idx, idx := i }, true)

/-- RuneBuffer.Kill: push `buf[idx:]`, truncate to `buf[:idx]`. -/
def kill (rb : RBState) : RBState × Bool :=
  if rb.idx = rb.buf.length then (rb, false)
  else (pushKill (rb.buf.drop rb.idx) { rb with buf := rb.buf.take rb.idx }, true)

/-- RuneBuffer.KillFront: push `buf[:idx]`, shift the tail down
(`copy(buf[:length], buf[idx:]); buf = buf[:length]`), cursor to 0. -/
def killFront (rb : RBState) : RBState × Bool :=
  if rb.idx = 0 then (rb, false)
  else
    (pushKill (rb.buf.take rb.idx)
      { rb with buf := rb.buf.drop rb.idx, idx := 0 }, true)

/-- RuneBuffer.Yank: fails on an empty kill slot, else reinserts a copy of it
at the cursor. -/
def yank (rb : RBState) : RBState × Bool :=
  if rb.lastKill.length = 0 then (rb, false)
  else
    ({ rb with buf := rb.buf.take rb.idx ++ rb.lastKill ++ rb.buf.drop rb.idx
               idx := rb.idx + rb.lastKill.length }, true)

/-- RuneBuffer.resetBuf (Reset/ResetBuf): cursor 0, empty buffer. -/
def resetBuf (rb : RBState) : RBState :=
  { rb with idx := 0, buf := [] }

/-- RuneBuffer.Backup: snapshot `(buf, idx)`.  (The Go snapshot aliases the
live array, so its contents can be clobbered by later in-place edits; its
length and index are fixed, which is all the cursor invariant uses.) -/
def backupOp (rb : RBState) : RBState :=
  { rb with backup := some (rb.buf, rb.idx) }

/-- RuneBuffer.Restore: reinstate the snapshot when one exists. -/
def restoreOp (rb : RBState) : RBState :=
  match rb.backup with
  | none => rb
  | some (b, i) => { rb with buf := b, idx := i }

/-- The editing operations named by the spec's Line Buffer invariant (write,
insert, all cursor motions, backspace, delete, transpose, the kill family,
yank, erase, reset, backup/restore). -/
inductive EditOp where
  | writeOp (s : List Char)
  | insertOp (s : List Char)
  | lineStartOp
  | lineEndOp
  | backwardOp
  | forwardOp
  | prevWordOp
  | nextWordOp
  | endWordOp
  | moveToOp (ch : Char) (prevChar reverse : Bool)
  | backspaceOp
  | deleteOp
  | transposeOp
  | killOp
  | killFrontOp
  | killWordOp
  | killWordFrontOp
  | yankOp
  | eraseOp
  | resetOp
  | backupSnapOp
  | restoreSnapOp

/-- Apply one editing operation (discarding the success flag). -/
def applyOp (E : Ext) (op : EditOp) (rb : RBState) : RBState :=
  match op with
  | EditOp.writeOp s => writeRunes s rb
  | EditOp.insertOp s => insertRunes s rb
  | EditOp.lineStartOp => (moveToLineStart rb).1
  | EditOp.lineEndOp => (moveToLineEnd rb).1
  | EditOp.backwardOp => (moveBackward rb).1
  | EditOp.forwardOp => (moveForward rb).1
  | EditOp.prevWordOp => (moveToPrevWord E rb).1
  | EditOp.nextWordOp => (moveToNextWord E rb).1
  | EditOp.endWordOp => (moveToEndWord E rb).1
  | EditOp.moveToOp ch p r => (moveTo ch p r rb).1
  | EditOp.backspaceOp => (backspace rb).1
  | EditOp.deleteOp => (delete rb).1
  | EditOp.transposeOp => (transpose rb).1
  | EditOp.killOp => (kill rb).1
  | EditOp.killFrontOp => (killFront rb).1
  | EditOp.killWordOp => (killWord E rb).1
  | EditOp.killWordFrontOp => (killWordFront E rb).1
  | EditOp.yankOp => (yank rb).1
  | EditOp.eraseOp => (erase rb).1
  | EditOp.resetOp => resetBuf rb
  | EditOp.backupSnapOp => backupOp rb
  | EditOp.restoreSnapOp => restoreOp rb

/-- Apply a sequence of editing operations left to right. -/
def applyOps (E : Ext) (ops : List EditOp) (rb : RBState) : RBState :=
  ops.foldl (fun s op => applyOp E op s) rb

/-- The Line Buffer invariant: the cursor stays inside `[0, len buf]`, and any
saved snapshot satisfies the same bound (so Restore re-establishes it). -/
def InvRB (rb : RBState) : Prop :=
  rb.idx ≤ rb.buf.length ∧
    ∀ b i, rb.backup = some (b, i) → i ≤ b.length

/-! Rendering (`outputPrint` and `getBackspaceSequence`).  Output is modelled
at codepoint granularity: the byte writer emits the UTF-8 encoding of exactly
these codepoints. -/

/-- The escape emitted per wrapped line boundary:
`"\033[A" + "\r" + "\033[" + itoa(screenWidth) + "C"`. -/
def escUpSeq (sw : Int) : List Char :=
  '\x1b' :: '[' :: 'A' :: '\r' :: '\x1b' :: '[' :: ((toString sw).toList ++ ['C'])

/-- The separator-column loop of getBackspaceSequence:
`for idx, size := 0, WidthAll(buf); idx < size; idx++ { if idx == 0 { idx -=
promptWidth }; idx += screenWidth; sep[idx] = true }`.  The loop variable is
mutated inside the body, so it is threaded explicitly; the fuel bounds the
iteration count (the Go loop can fail to terminate when
`promptWidth = screenWidth + 1`, in which case the embedding cuts off). -/
def sepLoop (pw : Nat) (sw : Int) (size : Nat) : Nat → Int → List Int → List Int
  | 0, _, acc => acc
  | fuel + 1, i, acc =>
    if i < (size : Int) then
      let i1 := if i = 0 then i - pw else i
      let i2 := i1 + sw
      sepLoop pw sw size fuel (i2 + 1) (acc ++ [i2])
    else acc

/-- The emission loop of getBackspaceSequence: for `idx` from `len buf` down
to `lo + 1`, a wrapped-line escape when `idx` is a separator column, else a
single backspace byte. -/
def bsEmit (sep : List Int) (sw : Int) (lo : Nat) : Nat → List Char
  | 0 => []
  | i + 1 =>
    if lo < i + 1 then
      (if ((i + 1 : Nat) : Int) ∈ sep then escUpSeq sw else ['\x08']) ++
        bsEmit sep sw lo i
    else []

/-- RuneBuffer.getBackspaceSequence. -/
def getBackspaceSequence (E : Ext) (rb : RBState) : List Char :=
  let size := E.widthAll rb.buf
  let sep := sepLoop rb.promptWidth rb.screenWidth size (size + 1) 0 []
  bsEmit sep rb.screenWidth rb.idx rb.buf.length

/-- RuneBuffer.isInLineEdge: the last wrapped display line is empty.  (The Go
code indexes `sp[len(sp)-1]`; the external SplitByLine returns at least one
line, and an empty split reads as false here.) -/
def isInLineEdge (E : Ext) (rb : RBState) : Bool :=
  match (E.splitByLine rb.promptWidth rb.screenWidth rb.buf).getLast? with
  | some l => l.isEmpty
  | none => false

/-- RuneBuffer.outputPrint: prompt, then either the masked rendering (mask set
and buffer non-empty: `len-1` mask characters, then a literal newline when the
final codepoint is a newline, else one more mask character, then the cursor
repositioning sequence when the cursor is not at the end) or the plain
rendering (tabs expanded to `TabWidth` spaces, a " \b" nudge at a line edge),
followed by the cursor repositioning sequence when the cursor is not at the
end.  Note the masked branch emits the repositioning sequence a second time
via the shared trailing block. -/
def outputPrint (E : Ext) (rb : RBState) : List Char :=
  rb.prompt ++
    (if rb.mask ≠ charNul ∧ rb.buf ≠ [] then
      List.replicate (rb.buf.length - 1) rb.mask ++
        (if rb.buf.getLast? = some '\n' then ['\n'] else [rb.mask]) ++
        (if rb.idx < rb.buf.length then getBackspaceSequence E rb else [])
    else
      rb.buf.flatMap (fun c =>
        if c = '\t' then List.replicate E.tabWidth ' ' else [c]) ++
        (if isInLineEdge E rb then [' ', '\x08'] else [])) ++
    (if rb.idx < rb.buf.length then getBackspaceSequence E rb else [])

/-! The Session Controller: the byte-dispatch loop `Terminal.ioloop`
(src/v2/terminal.go).  Input is a raw byte stream; multi-byte UTF-8 decoding
(bytes ≥ 0x80 outside escape mode) is modelled one codepoint per byte, which
no verified claim exercises. -/

/-- Control byte values (src/v2/chars.go; `CharBackspaceEx`, `CharFeed`,
`CharReturn`, `CharClear`, `CharKillFront`, `CharKillWordFront`, `CharYank`
and `CharEscape` are used by terminal.go but their constant declarations are
not included in src — their values follow the `CharCtrlX` table of chars.go:
Ctrl-H, Ctrl-J, Ctrl-M, Ctrl-L, Ctrl-U, Ctrl-W, Ctrl-Y, ESC). -/
def CharLineStart : Nat := 0x01
def CharBackward : Nat := 0x02
def CharInterrupt : Nat := 0x03
def CharDelete : Nat := 0x04
def CharLineEnd : Nat := 0x05
def CharForward : Nat := 0x06
def CharBell : Nat := 0x07
def CharBackspaceEx : Nat := 0x08
def CharTab : Nat := 0x09
def CharFeed : Nat := 0x0A
def CharKill : Nat := 0x0B
def CharClear : Nat := 0x0C
def CharReturn : Nat := 0x0D
def CharNext : Nat := 0x0E
def CharPrev : Nat := 0x10
def CharBckSearch : Nat := 0x12
def CharFwdSearch : Nat := 0x13
def CharTranspose : Nat := 0x14
def CharKillFront : Nat := 0x15
def CharKillWordFront : Nat := 0x17
def CharYank : Nat := 0x19
def CharEscape : Nat := 0x1B
def CharBackspace : Nat := 0x7F

/-- Classification of a terminated read-line session. -/
inductive LoopErr where
  | interrupted
  | eof
deriving DecidableEq

/-- A Line Result: the finalized line or an error classification. -/
structure LineResult where
  line : List Char
  err : Option LoopErr
deriving DecidableEq

/-- State of the ioloop: the escape accumulation flag and buffer, the
insert-mode toggle, the rune buffer, the capacity-one result mailbox
(`lineResultCh`), the list of results actually published into it, the bytes
written to the output sink, and the terminal error that stops the loop. -/
structure LoopState where
  escaped : Bool
  escBuf : List Nat
  insMode : Bool
  rb : RBState
  slot : Option LineResult
  sent : List LineResult
  out : List Nat
  err : Option LoopErr
deriving DecidableEq

/-- Abstraction of `decodeEscapeKeyPair` combined with `Terminal.escape` (both
outside the embedded core): given the accumulated bytes and the (rune buffer,
insert-mode) context, `some (ctx, remainder)` when a decodable escape event
was produced and handled, `none` when the sequence is not (yet) decodable. -/
def EscAttempt : Type :=
  List Nat → RBState × Bool → Option ((RBState × Bool) × List Nat)

/-- Terminal.sendLineResult: non-blocking publish into the capacity-one
mailbox — dropped when a previous result is still unclaimed. -/
def sendLineResult (r : LineResult) (s : LoopState) : LoopState :=
  if s.slot = none then { s with slot := some r, sent := s.sent ++ [r] } else s

/-- Terminal.bell: one bell byte to the output sink. -/
def bell (s : LoopState) : LoopState :=
  { s with out := s.out ++ [CharBell] }

/-- A failed buffer operation degrades to the bell. -/
def opWrap (f : RBState → RBState × Bool) (s : LoopState) : LoopState :=
  if (f s.rb).2 then { s with rb := (f s.rb).1 }
  else bell { s with rb := (f s.rb).1 }

/-- Terminal.opReturn: move to the end, append a newline, strip it from the
serialized line (the final rune is the just-written single-byte newline, so
dropping the last byte drops exactly it), publish, clear the buffer. -/
def opReturn (s : LoopState) : LoopState :=
  let rb1 := (moveToLineEnd s.rb).1
  let rb2 := writeRunes ['\n'] rb1
  let line := rb2.buf.dropLast
  let s1 := sendLineResult { line := line, err := none } s
  { s1 with rb := resetBuf rb2 }

/-- Modelled from the spec: `encodeControlChars` (not in src).  The spec's
Session Controller writes a literal codepoint unchanged into the Line Buffer,
so the encoding is the identity. -/
def encodeControlChars (p : List Nat) : List Nat := p

/-- The control-byte dispatch switch of Terminal.ioloop applied to the pending
bytes `p` (`if len(p) <= 0 { continue }` first). -/
def processP (E : Ext) (p : List Nat) (s : LoopState) : LoopState :=
  match p with
  | [] => s
  | b :: _ =>
    if b = CharLineStart then opWrap moveToLineStart s
    else if b = CharBackward then opWrap moveBackward s
    else if b = CharInterrupt then { s with err := some LoopErr.interrupted }
    else if b = CharDelete then { s with err := some LoopErr.eof }
    else if b = CharLineEnd then opWrap moveToLineEnd s
    else if b = CharForward then opWrap moveForward s
    else if b = CharBell then bell s
    else if b = CharBackspace ∨ b = CharBackspaceEx then opWrap backspace s
    else if b = CharTab then bell s
    else if b = CharFeed ∨ b = CharReturn then opReturn s
    else if b = CharKill then opWrap kill s
    else if b = CharClear then { s with out := s.out ++ [0x1B, 0x5B, 0x48] }
    else if b = CharNext then s
    else if b = CharPrev then s
    else if b = CharBckSearch then s
    else if b = CharFwdSearch then s
    else if b = CharTranspose then opWrap transpose s
    else if b = CharKillFront then opWrap killFront s
    else if b = CharKillWordFront then opWrap (killWordFront E) s
    else if b = CharYank then opWrap yank s
    else
      let q := (encodeControlChars p).map Char.ofNat
      if s.insMode then { s with rb := insertRunes q s.rb }
      else { s with rb := writeRunes q s.rb }

/-- One iteration of Terminal.ioloop on input byte `b`: a terminal error stops
processing; an ESC byte (or pending escape mode) accumulates into `escBuf`
(reset on entry) and consults the decoder — on a handled event the remainder
is dispatched, otherwise accumulation continues while fewer than 16 bytes are
held, and on fill the bytes are reinterpreted as literal input
`ESC :: escBuf`; any other byte is dispatched directly. -/
def stepByte (E : Ext) (att : EscAttempt) (s : LoopState) (b : Nat) : LoopState :=
  if s.err.isSome then s
  else if b = CharEscape ∨ s.escaped then
    let ebuf := if s.escaped then s.escBuf ++ [b] else []
    match att ebuf (s.rb, s.insMode) with
    | some ((rb1, ins1), rem) =>
      processP E rem { s with escaped := false, escBuf := ebuf, rb := rb1, insMode := ins1 }
    | none =>
      if ebuf.length < 16 then { s with escaped := true, escBuf := ebuf }
      else processP E (CharEscape :: ebuf) { s with escaped := false, escBuf := ebuf }
  else processP E [b] s

/-- Run the ioloop over a byte stream. -/
def runBytes (E : Ext) (att : EscAttempt) (bs : List Nat) (s : LoopState) : LoopState :=
  bs.foldl (stepByte E att) s

/-- The escape-accumulation invariant of the ioloop: the buffer never holds
more than its 16-byte capacity, and while in escape mode there is room for at
least one more byte. -/
def InvEsc (s : LoopState) : Prop :=
  s.escBuf.length ≤ 16 ∧ (s.escaped = true → s.escBuf.length < 16)

/-- A concrete instantiation of the external width/format model, used for
evaluating the embedding at concrete inputs: width = codepoint count, no color
stripping, no wrapping, 8-column tabs, blank as the only word break. -/
def extSample : Ext where
  wordBreak c := c = ' '
  widthAll := List.length
  colorFilter := id
  splitByLine _ _ s := [s]
  tabWidth := 8

/-- A word-break predicate that never breaks, for exercising the
no-boundary-found paths at concrete inputs. -/
def extNoBreak : Ext :=
  { extSample with wordBreak := fun _ => false }

/-- A rune-buffer state with the given text and cursor and benign defaults. -/
def mkRB (buf : List Char) (idx : Nat) : RBState where
  prompt := []
  promptWidth := 0
  mask := charNul
  screenWidth := 80
  idx := idx
  buf := buf
  backup := none
  lastKill := []

/-- The ioloop state at the start of a session: empty buffer, no escape
pending, empty mailbox. -/
def initLoop : LoopState where
  escaped := false
  escBuf := []
  insMode := false
  rb := mkRB [] 0
  slot := none
  sent := []
  out := []
  err := none

/-- An escape-decode abstraction that never produces an event. -/
def attNone : EscAttempt := fun _ _ => none

/-! Helper lemmas about the scanning loops. -/

theorem scanPrev_le (E : Ext) (buf : List Char) : ∀ i, scanPrev E buf i ≤ i := by
  intro i
  induction i with
  | zero => simp [scanPrev]
  | succ i ih =>
    rw [scanPrev]
    split
    · exact le_rfl
    · exact le_trans ih (Nat.le_succ i)

theorem scanPrev_boundary (E : Ext) (buf : List Char) :
    ∀ i, scanPrev E buf i = 0 ∨ wordBoundary E buf (scanPrev E buf i) = true := by
  intro i
  induction i with
  | zero => exact Or.inl rfl
  | succ i ih =>
    rw [scanPrev]
    split
    · next h => exact Or.inr h
    · exact ih

theorem scanPrev_max (E : Ext) (buf : List Char) :
    ∀ i k, scanPrev E buf i < k → k ≤ i → wordBoundary E buf k = false := by
  intro i
  induction i with
  | zero => intro k h1 h2; omega
  | succ i ih =>
    intro k h1 h2
    rw [scanPrev] at h1
    by_cases hb : wordBoundary E buf (i + 1) = true
    · rw [if_pos hb] at h1; omega
    · rw [if_neg hb] at h1
      by_cases hk : k = i + 1
      · subst hk; simpa using hb
      · exact ih k h1 (by omega)

theorem scanNext_spec (E : Ext) (buf : List Char) (i : Nat) :
    scanNext E buf i ≤ buf.length ∧
      min i buf.length ≤ scanNext E buf i ∧
      (scanNext E buf i = buf.length ∨ wordBoundary E buf (scanNext E buf i) = true) ∧
      ∀ k, i ≤ k → k < scanNext E buf i → wordBoundary E buf k = false := by
  suffices h : ∀ fuel j, buf.length - j ≤ fuel →
      scanNext E buf j ≤ buf.length ∧
        min j buf.length ≤ scanNext E buf j ∧
        (scanNext E buf j = buf.length ∨ wordBoundary E buf (scanNext E buf j) = true) ∧
        ∀ k, j ≤ k → k < scanNext E buf j → wordBoundary E buf k = false by
    exact h (buf.length - i) i le_rfl
  intro fuel
  induction fuel with
  | zero =>
    intro j hj
    have hle : ¬ j < buf.length := by omega
    rw [scanNext, if_neg hle]
    refine ⟨le_rfl, by omega, Or.inl rfl, ?_⟩
    intro k hk1 hk2
    omega
  | succ fuel ih =>
    intro j hj
    rw [scanNext]
    by_cases h1 : j < buf.length
    · rw [if_pos h1]
      by_cases h2 : wordBoundary E buf j = true
      · rw [if_pos h2]
        refine ⟨by omega, by omega, Or.inr h2, ?_⟩
        intro k hk1 hk2
        omega
      · rw [if_neg h2]
        obtain ⟨a1, a2, a3, a4⟩ := ih (j + 1) (by omega)
        refine ⟨a1, by omega, a3, ?_⟩
        intro k hk1 hk2
        by_cases hk : k = j
        · subst hk; simpa using h2
        · exact a4 k (by omega) hk2
    · rw [if_neg h1]
      refine ⟨le_rfl, by omega, Or.inl rfl, ?_⟩
      intro k hk1 hk2
      omega

theorem scanEndWord_le (E : Ext) (buf : List Char) (i : Nat) :
    scanEndWord E buf i ≤ buf.length := by
  suffices h : ∀ fuel j, buf.length - j ≤ fuel → scanEndWord E buf j ≤ buf.length by
    exact h (buf.length - i) i le_rfl
  intro fuel
  induction fuel with
  | zero =>
    intro j hj
    have hle : ¬ j < buf.length := by omega
    rw [scanEndWord, if_neg hle]
  | succ fuel ih =>
    intro j hj
    rw [scanEndWord]
    by_cases h1 : j < buf.length
    · rw [if_pos h1]
      split
      · omega
      · exact ih (j + 1) (by omega)
    · rw [if_neg h1]

theorem findRevAux_le (buf : List Char) (ch : Char) :
    ∀ i j, findRevAux buf ch i = some j → j ≤ i := by
  intro i
  induction i with
  | zero =>
    intro j h
    rw [findRevAux] at h
    split at h
    · simp at h; omega
    · simp at h
  | succ i ih =>
    intro j h
    rw [findRevAux] at h
    split at h
    · simp at h; omega
    · exact le_trans (ih j h) (Nat.le_succ i)

theorem findFwdAux_lt (buf : List Char) (ch : Char) (i : Nat) :
    ∀ j, findFwdAux buf ch i = some j → j < buf.length := by
  suffices h : ∀ fuel k j, buf.length - k ≤ fuel →
      findFwdAux buf ch k = some j → j < buf.length by
    intro j hj
    exact h (buf.length - i) i j le_rfl hj
  intro fuel
  induction fuel with
  | zero =>
    intro k j hk h
    have hle : ¬ k < buf.length := by omega
    rw [findFwdAux, if_neg hle] at h
    simp at h
  | succ fuel ih =>
    intro k j hk h
    rw [findFwdAux] at h
    split at h
    · split at h
      · next h1 _ => simp at h; omega
      · exact ih (k + 1) j (by omega) h
    · simp at h

/-! Preservation of the cursor invariant by each editing operation. -/

theorem invRB_writeRunes (s : List Char) (rb : RBState) (h : InvRB rb) :
    InvRB (writeRunes s rb) := by
  obtain ⟨h1, h2⟩ := h
  refine ⟨?_, ?_⟩
  · simp only [writeRunes, copyAndGrow, List.length_append, List.length_take,
      List.length_drop]
    omega
  · intro b i hb
    exact h2 b i hb

theorem invRB_insertRunes (s : List Char) (rb : RBState) (h : InvRB rb) :
    InvRB (insertRunes s rb) := by
  obtain ⟨h1, h2⟩ := h
  refine ⟨?_, ?_⟩
  · simp only [insertRunes, List.length_append, List.length_take, List.length_drop]
    omega
  · intro b i hb
    exact h2 b i hb

theorem invRB_moveToLineStart (rb : RBState) (h : InvRB rb) :
    InvRB (moveToLineStart rb).1 := by
  obtain ⟨h1, h2⟩ := h
  unfold moveToLineStart
  split
  · exact ⟨h1, h2⟩
  · exact ⟨Nat.zero_le _, h2⟩

theorem invRB_moveToLineEnd (rb : RBState) (h : InvRB rb) :
    InvRB (moveToLineEnd rb).1 := by
  obtain ⟨h1, h2⟩ := h
  unfold moveToLineEnd
  split
  · exact ⟨h1, h2⟩
  · exact ⟨le_rfl, h2⟩

theorem invRB_moveBackward (rb : RBState) (h : InvRB rb) :
    InvRB (moveBackward rb).1 := by
  obtain ⟨h1, h2⟩ := h
  unfold moveBackward
  split
  · exact ⟨h1, h2⟩
  · exact ⟨by simp; omega, h2⟩

theorem invRB_moveForward (rb : RBState) (h : InvRB rb) :
    InvRB (moveForward rb).1 := by
  obtain ⟨h1, h2⟩ := h
  unfold moveForward
  split
  · exact ⟨h1, h2⟩
  · next hne => exact ⟨by simp; omega, h2⟩

theorem invRB_moveToPrevWord (E : Ext) (rb : RBState) (h : InvRB rb) :
    InvRB (moveToPrevWord E rb).1 := by
  obtain ⟨h1, h2⟩ := h
  unfold moveToPrevWord
  split
  · exact ⟨h1, h2⟩
  · next hne =>
    refine ⟨?_, h2⟩
    simp only
    have := scanPrev_le E rb.buf (rb.idx - 1)
    omega

theorem invRB_moveToNextWord (E : Ext) (rb : RBState) (h : InvRB rb) :
    InvRB (moveToNextWord E rb).1 := by
  obtain ⟨h1, h2⟩ := h
  refine ⟨?_, h2⟩
  simp only [moveToNextWord]
  exact (scanNext_spec E rb.buf (rb.idx + 1)).1

theorem invRB_moveToEndWord (E : Ext) (rb : RBState) (h : InvRB rb) :
    InvRB (moveToEndWord E rb).1 := by
  obtain ⟨h1, h2⟩ := h
  unfold moveToEndWord
  split
  · exact ⟨h1, h2⟩
  · refine ⟨?_, h2⟩
    simp only
    exact scanEndWord_le E rb.buf _

theorem invRB_moveTo (ch : Char) (p r : Bool) (rb : RBState) (h : InvRB rb) :
    InvRB (moveTo ch p r rb).1 := by
  obtain ⟨h1, h2⟩ := h
  unfold moveTo
  split
  · split
    · exact ⟨h1, h2⟩
    · next hne =>
      split
      · next j hj =>
        have hle := findRevAux_le rb.buf ch (rb.idx - 1) j hj
        refine ⟨?_, h2⟩
        simp only
        split <;> omega
      · exact ⟨h1, h2⟩
  · split
    · next j hj =>
      have hlt := findFwdAux_lt rb.buf ch (rb.idx + 1) j hj
      refine ⟨?_, h2⟩
      simp only
      split <;> omega
    · exact ⟨h1, h2⟩

theorem invRB_backspace (rb : RBState) (h : InvRB rb) :
    InvRB (backspace rb).1 := by
  obtain ⟨h1, h2⟩ := h
  unfold backspace
  split
  · exact ⟨h1, h2⟩
  · refine ⟨?_, h2⟩
    simp only [List.length_append, List.length_take, List.length_drop]
    omega

theorem invRB_transpose (rb : RBState) (h : InvRB rb) :
    InvRB (transpose rb).1 := by
  obtain ⟨h1, h2⟩ := h
  unfold transpose
  split
  · exact ⟨h1, h2⟩
  · split
    · exact ⟨h1, h2⟩
    · next hlen hidx =>
      refine ⟨?_, h2⟩
      simp only [List.length_set]
      split <;> omega

theorem invRB_erase (rb : RBState) (h : InvRB rb) :
    InvRB (erase rb).1 := by
  obtain ⟨h1, h2⟩ := h
  unfold erase
  split
  · exact ⟨h1, h2⟩
  · exact ⟨Nat.zero_le _, h2⟩

theorem invRB_delete (rb : RBState) (h : InvRB rb) :
    InvRB (delete rb).1 := by
  obtain ⟨h1, h2⟩ := h
  unfold delete
  split
  · exact ⟨h1, h2⟩
  · next hne =>
    refine ⟨?_, h2⟩
    simp only [pushKill, List.length_append, List.length_take, List.length_drop]
    omega

theorem invRB_killWord (E : Ext) (rb : RBState) (h : InvRB rb) :
    InvRB (killWord E rb).1 := by
  obtain ⟨h1, h2⟩ := h
  unfold killWord
  split
  · exact ⟨h1, h2⟩
  · next hne =>
    dsimp only
    split
    · refine ⟨?_, h2⟩
      simp only [pushKill, List.length_append, List.length_take, List.length_drop]
      omega
    · refine ⟨?_, h2⟩
      simp only [pushKill, List.length_take]
      omega

theorem invRB_killWordFront (E : Ext) (rb : RBState) (h : InvRB rb) :
    InvRB (killWordFront E rb).1 := by
  obtain ⟨h1, h2⟩ := h
  unfold killWordFront
  split
  · exact ⟨h1, h2⟩
  · next hne =>
    dsimp only
    split
    · exact ⟨Nat.zero_le _, h2⟩
    · refine ⟨?_, h2⟩
      have := scanPrev_le E rb.buf (rb.idx - 1)
      simp only [pushKill, List.length_append, List.length_take, List.length_drop]
      omega

theorem invRB_kill (rb : RBState) (h : InvRB rb) : InvRB (kill rb).1 := by
  obtain ⟨h1, h2⟩ := h
  unfold kill
  split
  · exact ⟨h1, h2⟩
  · refine ⟨?_, h2⟩
    simp only [pushKill, List.length_take]
    omega

theorem invRB_killFront (rb : RBState) (h : InvRB rb) : InvRB (killFront rb).1 := by
  obtain ⟨h1, h2⟩ := h
  unfold killFront
  split
  · exact ⟨h1, h2⟩
  · exact ⟨Nat.zero_le _, h2⟩

theorem invRB_yank (rb : RBState) (h : InvRB rb) : InvRB (yank rb).1 := by
  obtain ⟨h1, h2⟩ := h
  unfold yank
  split
  · exact ⟨h1, h2⟩
  · refine ⟨?_, h2⟩
    simp only [List.length_append, List.length_take, List.length_drop]
    omega

theorem invRB_resetBuf (rb : RBState) (h : InvRB rb) : InvRB (resetBuf rb) := by
  obtain ⟨h1, h2⟩ := h
  exact ⟨Nat.zero_le _, h2⟩

theorem invRB_backupOp (rb : RBState) (h : InvRB rb) : InvRB (backupOp rb) := by
  obtain ⟨h1, h2⟩ := h
  refine ⟨h1, ?_⟩
  intro b i hb
  simp only [backupOp, Option.some.injEq, Prod.mk.injEq] at hb
  obtain ⟨hb1, hb2⟩ := hb
  subst hb1; subst hb2
  exact h1

theorem invRB_restoreOp (rb : RBState) (h : InvRB rb) : InvRB (restoreOp rb) := by
  obtain ⟨h1, h2⟩ := h
  unfold restoreOp
  split
  · exact ⟨h1, h2⟩
  · next b i hb => exact ⟨h2 b i hb, fun b' i' hb' => h2 b' i' hb'⟩

theorem invRB_applyOp (E : Ext) (op : EditOp) (rb : RBState) (h : InvRB rb) :
    InvRB (applyOp E op rb) := by
  cases op with
  | writeOp s => exact invRB_writeRunes s rb h
  | insertOp s => exact invRB_insertRunes s rb h
  | lineStartOp => exact invRB_moveToLineStart rb h
  | lineEndOp => exact invRB_moveToLineEnd rb h
  | backwardOp => exact invRB_moveBackward rb h
  | forwardOp => exact invRB_moveForward rb h
  | prevWordOp => exact invRB_moveToPrevWord E rb h
  | nextWordOp => exact invRB_moveToNextWord E rb h
  | endWordOp => exact invRB_moveToEndWord E rb h
  | moveToOp ch p r => exact invRB_moveTo ch p r rb h
  | backspaceOp => exact invRB_backspace rb h
  | deleteOp => exact invRB_delete rb h
  | transposeOp => exact invRB_transpose rb h
  | killOp => exact invRB_kill rb h
  | killFrontOp => exact invRB_killFront rb h
  | killWordOp => exact invRB_killWord E rb h
  | killWordFrontOp => exact invRB_killWordFront E rb h
  | yankOp => exact invRB_yank rb h
  | eraseOp => exact invRB_erase rb h
  | resetOp => exact invRB_resetBuf rb h
  | backupSnapOp => exact invRB_backupOp rb h
  | restoreSnapOp => exact invRB_restoreOp rb h

theorem applyOp_screenWidth (E : Ext) (op : EditOp) (rb : RBState) :
    (applyOp E op rb).screenWidth = rb.screenWidth := by
  cases op <;>
    simp only [applyOp, writeRunes, insertRunes, moveToLineStart, moveToLineEnd,
      moveBackward, moveForward, moveToPrevWord, moveToNextWord, moveToEndWord,
      moveTo, backspace, transpose, erase, delete, killWord, killWordFront, kill,
      killFront, yank, resetBuf, backupOp, restoreOp, pushKill] <;>
    (repeat' split) <;> rfl

theorem applyOps_screenWidth (E : Ext) (ops : List EditOp) (st : RBState) :
    (applyOps E ops st).screenWidth = st.screenWidth := by
  induction ops generalizing st with
  | nil => rfl
  | cons op rest ih =>
    show (applyOps E rest (applyOp E op st)).screenWidth = st.screenWidth
    rw [ih (applyOp E op st), applyOp_screenWidth]

/-! The claims. -/

/-- C3: the invariant `0 ≤ cursor ≤ len(text)` (together with the validity of
any saved snapshot) is preserved by every single editing operation and hence
holds after every operation of every valid sequence, from any state
satisfying it. -/
theorem claim_C3_cursor_invariant :
    (∀ (E : Ext) (op : EditOp) (st : RBState), InvRB st → InvRB (applyOp E op st)) ∧
    (∀ (E : Ext) (ops : List EditOp) (st : RBState), InvRB st → InvRB (applyOps E ops st)) := by
  refine ⟨invRB_applyOp, ?_⟩
  intro E ops
  induction ops with
  | nil => exact fun st h => h
  | cons op rest ih =>
    intro st h
    exact ih (applyOp E op st) (invRB_applyOp E op st h)

theorem claim_C3_witness :
    InvRB (applyOps extSample
      [EditOp.writeOp ['h', 'i'], EditOp.backwardOp, EditOp.killOp, EditOp.yankOp]
      (mkRB [] 0)) :=
  claim_C3_cursor_invariant.2 extSample
    [EditOp.writeOp ['h', 'i'], EditOp.backwardOp, EditOp.killOp, EditOp.yankOp]
    (mkRB [] 0) ⟨Nat.le_refl 0, by intro b i hb; simp [mkRB] at hb⟩

/-- C4: from any state with the cursor strictly before the end, `kill`
immediately followed by `yank` succeeds, restores the exact pre-kill buffer,
and leaves the cursor at the kill point plus the killed span length, which is
the end of the buffer. -/
theorem claim_C4_kill_yank_roundtrip (st : RBState) (h : st.idx < st.buf.length) :
    (kill st).2 = true ∧
    (yank (kill st).1).2 = true ∧
    (yank (kill st).1).1.buf = st.buf ∧
    (yank (kill st).1).1.idx = st.idx + (kill st).1.lastKill.length ∧
    (yank (kill st).1).1.idx = st.buf.length := by
  have hne : ¬ st.idx = st.buf.length := by omega
  have htk : (List.take st.idx st.buf).length = st.idx := by
    simp [List.length_take]
    omega
  simp only [kill, if_neg hne, pushKill, copyRunes, yank]
  have hkl : ¬ (List.drop st.idx st.buf).length = 0 := by
    simp only [List.length_drop]
    omega
  simp only [if_neg hkl]
  refine ⟨trivial, trivial, ?_, trivial, ?_⟩
  · rw [List.take_take, min_self, List.drop_eq_nil_of_le (le_of_eq htk),
      List.append_nil, List.take_append_drop]
  · simp only [List.length_drop]
    omega

theorem claim_C4_witness :
    (kill (mkRB ['h', 'e', 'l', 'l', 'o'] 2)).2 = true ∧
    (yank (kill (mkRB ['h', 'e', 'l', 'l', 'o'] 2)).1).2 = true ∧
    (yank (kill (mkRB ['h', 'e', 'l', 'l', 'o'] 2)).1).1.buf = ['h', 'e', 'l', 'l', 'o'] ∧
    (yank (kill (mkRB ['h', 'e', 'l', 'l', 'o'] 2)).1).1.idx =
      2 + (kill (mkRB ['h', 'e', 'l', 'l', 'o'] 2)).1.lastKill.length ∧
    (yank (kill (mkRB ['h', 'e', 'l', 'l', 'o'] 2)).1).1.idx = 5 :=
  claim_C4_kill_yank_roundtrip (mkRB ['h', 'e', 'l', 'l', 'o'] 2) (by decide)

/-- C7: `setScreenWidth` rejects every value `≤ 0` with `InvalidScreenWidth`,
leaving the state unchanged, and stores every positive value; a successfully
constructed buffer has positive screen width, and the width stays positive
after every editing operation and every further `setScreenWidth` call. -/
theorem claim_C7_screen_width :
    (∀ (v : Int) (st : RBState), v ≤ 0 →
      setScreenWidth v st = (st, some (RBErr.invalidScreenWidth v))) ∧
    (∀ (v : Int) (st : RBState), 0 < v →
      setScreenWidth v st = ({ st with screenWidth := v }, none)) ∧
    (∀ (E : Ext) (prompt : List Char) (mask : Char) (w : Int) (st : RBState),
      newRuneBuffer E prompt mask w = Except.ok st → 0 < st.screenWidth) ∧
    (∀ (E : Ext) (ops : List EditOp) (st : RBState),
      0 < st.screenWidth → 0 < (applyOps E ops st).screenWidth) ∧
    (∀ (v : Int) (st : RBState), 0 < st.screenWidth →
      0 < (setScreenWidth v st).1.screenWidth) := by
  refine ⟨?_, ?_, ?_, ?_, ?_⟩
  · intro v st hv
    simp [setScreenWidth, hv]
  · intro v st hv
    simp [setScreenWidth, show ¬ v ≤ 0 by omega]
  · intro E prompt mask w st h
    unfold newRuneBuffer at h
    by_cases hw : w ≤ 0
    · simp [setScreenWidth, hw] at h
    · simp only [setScreenWidth, if_neg hw, Except.ok.injEq] at h
      rw [← h]
      dsimp only
      omega
  · intro E ops st h
    rw [applyOps_screenWidth]
    exact h
  · intro v st h
    unfold setScreenWidth
    split
    · exact h
    · next hv => simp only; omega

theorem claim_C7_witness :
    setScreenWidth (-3) (mkRB [] 0) = (mkRB [] 0, some (RBErr.invalidScreenWidth (-3))) ∧
    0 < (applyOps extSample [EditOp.writeOp ['a']] (mkRB [] 0)).screenWidth :=
  ⟨claim_C7_screen_width.1 (-3) (mkRB [] 0) (by decide),
    claim_C7_screen_width.2.2.2.1 extSample [EditOp.writeOp ['a']] (mkRB [] 0) (by decide)⟩

/-- C10: `backspace` never modifies the kill slot — whether it succeeds or
fails, the stored last-kill span is exactly what it was before. -/
theorem claim_C10_backspace_kill_slot (st : RBState) :
    (backspace st).1.lastKill = st.lastKill := by
  unfold backspace
  split
  · rfl
  · rfl

/-- C1 counterexample: `WriteRunes` does not overtype.  At buffer "ab" with
cursor 0, writing "c" (shorter than the remaining tail) yields "cab" — the
buffer grows, instead of replacing "a" length-for-length with the length
unchanged as the claim states. -/
theorem claim_C1_counterexample :
    (writeRunes ['c'] (mkRB ['a', 'b'] 0)).buf = ['c', 'a', 'b'] ∧
    (['c'] : List Char).length <
      ((mkRB ['a', 'b'] 0).buf.drop (mkRB ['a', 'b'] 0).idx).length ∧
    (writeRunes ['c'] (mkRB ['a', 'b'] 0)).buf.length ≠ (mkRB ['a', 'b'] 0).buf.length := by
  decide

/-- C1 amended: the names are swapped relative to the claim. `WriteRunes`
inserts at the cursor — the tail shifts right, the buffer always grows by
`len(s)` — and it is `InsertRunes` that overtypes length-for-length from the
cursor, extending the buffer only for the excess beyond the end (so a write
shorter than the remaining tail leaves the tail beyond the overtype point in
place and the length unchanged).  Both advance the cursor by `len(s)`. -/
theorem claim_C1_write_insert (s : List Char) (st : RBState) (h : st.idx ≤ st.buf.length) :
    (writeRunes s st).buf = st.buf.take st.idx ++ s ++ st.buf.drop st.idx ∧
    (writeRunes s st).buf.length = st.buf.length + s.length ∧
    (writeRunes s st).idx = st.idx + s.length ∧
    (insertRunes s st).idx = st.idx + s.length ∧
    (s.length ≤ st.buf.length - st.idx →
      (insertRunes s st).buf =
        st.buf.take st.idx ++ s ++ st.buf.drop (st.idx + s.length) ∧
      (insertRunes s st).buf.length = st.buf.length) ∧
    (st.buf.length - st.idx ≤ s.length →
      (insertRunes s st).buf = st.buf.take st.idx ++ s) := by
  refine ⟨?_, ?_, rfl, rfl, ?_, ?_⟩
  · simp [writeRunes, copyAndGrow]
  · simp only [writeRunes, copyAndGrow, List.length_append, List.length_take,
      List.length_drop]
    omega
  · intro hs
    have hn : min (st.buf.length - st.idx) s.length = s.length := by omega
    constructor
    · simp only [insertRunes, hn, List.take_length, List.drop_length,
        List.append_nil]
    · simp only [insertRunes, hn, List.length_append, List.length_take,
        List.length_drop]
      omega
  · intro hs
    have hn : min (st.buf.length - st.idx) s.length = st.buf.length - st.idx := by
      omega
    have hdrop : st.idx + (st.buf.length - st.idx) = st.buf.length := by omega
    simp only [insertRunes, hn, hdrop, List.drop_length, List.append_nil]
    rw [List.append_assoc, List.take_append_drop]

theorem claim_C1_witness :
    (writeRunes ['x'] (mkRB ['a', 'b'] 1)).buf = ['a', 'x', 'b'] ∧
    (insertRunes ['x'] (mkRB ['a', 'b'] 1)).buf = ['a', 'x'] ∧
    (insertRunes ['x'] (mkRB ['a', 'b'] 1)).buf.length = 2 := by
  have H := claim_C1_write_insert ['x'] (mkRB ['a', 'b'] 1) (by decide)
  refine ⟨?_, ?_, ?_⟩
  · rw [H.1]; decide
  · rw [(H.2.2.2.2.1 (by decide)).1]; decide
  · rw [(H.2.2.2.2.1 (by decide)).2]; decide

/-- C5 counterexample: with no word boundary before the cursor (buffer "abc",
cursor 2, a word-break predicate holding nowhere, kill slot holding "z"),
`KillWordFront` clears the whole buffer — also the tail "c" after the cursor,
which the claim says stays intact — and leaves the kill slot at "z" instead of
storing the removed span "ab". -/
theorem claim_C5_counterexample :
    (killWordFront extNoBreak { mkRB ['a', 'b', 'c'] 2 with lastKill := ['z'] }).1.buf = [] ∧
    (killWordFront extNoBreak { mkRB ['a', 'b', 'c'] 2 with lastKill := ['z'] }).1.lastKill = ['z'] ∧
    (['z'] : List Char) ≠ ['a', 'b'] ∧
    ([] : List Char) ≠ ['c'] := by
  decide

/-- C5 amended: for cursor > 0, `KillWordFront` always succeeds and moves the
cursor to exactly the word-motion boundary (`MoveToPrevWord`'s target).  When
a boundary `i > 0` exists it removes exactly the span `[i, cursor)` — the kill
slot receives it and the buffer splits back together around it — and leaves
the rest intact; when no boundary exists it clears the entire buffer
(including the tail after the cursor) and leaves the kill slot unchanged. -/
theorem claim_C5_kill_word_front (E : Ext) (st : RBState)
    (h0 : 0 < st.idx) (h1 : st.idx ≤ st.buf.length) :
    (killWordFront E st).2 = true ∧
    (killWordFront E st).1.idx = (moveToPrevWord E st).1.idx ∧
    (scanPrev E st.buf (st.idx - 1) ≠ 0 →
      (killWordFront E st).1.lastKill =
        (st.buf.drop (scanPrev E st.buf (st.idx - 1))).take
          (st.idx - scanPrev E st.buf (st.idx - 1)) ∧
      (killWordFront E st).1.buf =
        st.buf.take (scanPrev E st.buf (st.idx - 1)) ++ st.buf.drop st.idx ∧
      st.buf = st.buf.take (scanPrev E st.buf (st.idx - 1)) ++
        ((killWordFront E st).1.lastKill ++ st.buf.drop st.idx)) ∧
    (scanPrev E st.buf (st.idx - 1) = 0 →
      (killWordFront E st).1.buf = [] ∧
      (killWordFront E st).1.idx = 0 ∧
      (killWordFront E st).1.lastKill = st.lastKill) := by
  have hne : ¬ st.idx = 0 := by omega
  have hile : scanPrev E st.buf (st.idx - 1) ≤ st.idx - 1 :=
    scanPrev_le E st.buf (st.idx - 1)
  unfold killWordFront moveToPrevWord
  rw [if_neg hne, if_neg hne]
  dsimp only
  by_cases hi : scanPrev E st.buf (st.idx - 1) = 0
  · rw [if_pos hi]
    refine ⟨rfl, ?_, ?_, ?_⟩
    · simp [hi]
    · intro hcontra; exact absurd hi hcontra
    · intro _; exact ⟨rfl, rfl, rfl⟩
  · rw [if_neg hi]
    refine ⟨rfl, rfl, ?_, ?_⟩
    · intro _
      refine ⟨rfl, rfl, ?_⟩
      simp only [pushKill, copyRunes]
      have hsum : scanPrev E st.buf (st.idx - 1) +
          (st.idx - scanPrev E st.buf (st.idx - 1)) = st.idx := by omega
      calc st.buf = st.buf.take st.idx ++ st.buf.drop st.idx :=
            (List.take_append_drop _ _).symm
        _ = (st.buf.take (scanPrev E st.buf (st.idx - 1)) ++
              (st.buf.drop (scanPrev E st.buf (st.idx - 1))).take
                (st.idx - scanPrev E st.buf (st.idx - 1))) ++ st.buf.drop st.idx := by
            rw [← List.take_add, hsum]
        _ = _ := by rw [List.append_assoc]
    · intro hcontra; exact absurd hcontra hi

theorem claim_C5_witness :
    (killWordFront extSample (mkRB ['a', 'b', ' ', 'c', 'd'] 5)).2 = true ∧
    (killWordFront extSample (mkRB ['a', 'b', ' ', 'c', 'd'] 5)).1.buf = ['a', 'b', ' '] ∧
    (killWordFront extSample (mkRB ['a', 'b', ' ', 'c', 'd'] 5)).1.lastKill = ['c', 'd'] ∧
    (killWordFront extSample (mkRB ['a', 'b', ' ', 'c', 'd'] 5)).1.idx = 3 := by
  have H := claim_C5_kill_word_front extSample (mkRB ['a', 'b', ' ', 'c', 'd'] 5)
    (by decide) (by decide)
  refine ⟨H.1, ?_, ?_, ?_⟩
  · rw [(H.2.2.1 (by decide)).2.1]; decide
  · rw [(H.2.2.1 (by decide)).1]; decide
  · rw [H.2.1]; decide

/-- C6 counterexample: `MoveToPrevWord` does not always succeed — at cursor 0
it returns false (buffer "a", cursor 0). -/
theorem claim_C6_counterexample :
    (moveToPrevWord extSample (mkRB ['a'] 0)).2 = false := by
  decide

/-- C6 amended: `MoveToNextWord` always succeeds, moving the cursor to the
nearest word boundary strictly after it and clamping to the buffer end when
none exists; `MoveToPrevWord` succeeds exactly when the cursor is nonzero
(failing at cursor 0), moving to the nearest boundary strictly before the
cursor and clamping to the buffer start when none exists. -/
theorem claim_C6_word_motion (E : Ext) (st : RBState) (h : InvRB st) :
    (moveToNextWord E st).2 = true ∧
    st.idx ≤ (moveToNextWord E st).1.idx ∧
    (moveToNextWord E st).1.idx ≤ st.buf.length ∧
    ((moveToNextWord E st).1.idx = st.buf.length ∨
      wordBoundary E st.buf ((moveToNextWord E st).1.idx) = true) ∧
    (∀ k, st.idx < k → k < (moveToNextWord E st).1.idx →
      wordBoundary E st.buf k = false) ∧
    (st.idx = 0 → (moveToPrevWord E st).2 = false) ∧
    (st.idx ≠ 0 →
      (moveToPrevWord E st).2 = true ∧
      (moveToPrevWord E st).1.idx < st.idx ∧
      ((moveToPrevWord E st).1.idx = 0 ∨
        wordBoundary E st.buf ((moveToPrevWord E st).1.idx) = true) ∧
      ∀ k, (moveToPrevWord E st).1.idx < k → k < st.idx →
        wordBoundary E st.buf k = false) := by
  obtain ⟨a1, a2, a3, a4⟩ := scanNext_spec E st.buf (st.idx + 1)
  simp only [moveToNextWord]
  refine ⟨trivial, ?_, a1, a3, ?_, ?_, ?_⟩
  · have := h.1
    omega
  · intro k hk1 hk2
    exact a4 k (by omega) hk2
  · intro h0
    simp [moveToPrevWord, h0]
  · intro h0
    simp only [moveToPrevWord, if_neg h0]
    refine ⟨trivial, ?_, scanPrev_boundary E st.buf (st.idx - 1), ?_⟩
    · have := scanPrev_le E st.buf (st.idx - 1)
      show scanPrev E st.buf (st.idx - 1) < st.idx
      omega
    · intro k hk1 hk2
      exact scanPrev_max E st.buf (st.idx - 1) k hk1 (by omega)

theorem claim_C6_witness :
    (moveToNextWord extSample (mkRB ['a', ' ', 'b'] 1)).2 = true ∧
    (moveToPrevWord extSample (mkRB ['a', ' ', 'b'] 1)).2 = true := by
  have H := claim_C6_word_motion extSample (mkRB ['a', ' ', 'b'] 1)
    ⟨by decide, by intro b i hb; simp [mkRB] at hb⟩
  exact ⟨H.1, (H.2.2.2.2.2.2 (by decide)).1⟩

/-- C9 counterexample: the final buffer codepoint does not display as itself.
With mask '*', buffer "ab" and cursor at the end, the rendering is "**" — the
final 'b' is rendered as the mask character, not normally. -/
theorem claim_C9_counterexample :
    outputPrint extSample { mkRB ['a', 'b'] 2 with mask := '*' } = ['*', '*'] ∧
    (outputPrint extSample { mkRB ['a', 'b'] 2 with mask := '*' }).getLast? = some '*' ∧
    ({ mkRB ['a', 'b'] 2 with mask := '*' } : RBState).buf.getLast? = some 'b' ∧
    ('*' : Char) ≠ 'b' := by
  decide

/-- C9 amended: when the mask is set and the buffer non-empty, the rendered
text segment (right after the prompt) substitutes the mask character for every
buffer codepoint including the final one; the only exception is a final
newline codepoint, which renders as an actual newline. -/
theorem claim_C9_mask_rendering (E : Ext) (st : RBState)
    (hm : st.mask ≠ charNul) (hb : st.buf ≠ []) :
    ((outputPrint E st).drop st.prompt.length).take st.buf.length =
      List.replicate (st.buf.length - 1) st.mask ++
        (if st.buf.getLast? = some '\n' then ['\n'] else [st.mask]) := by
  have hlen1 : (if st.buf.getLast? = some '\n' then ['\n'] else [st.mask]).length = 1 := by
    split <;> rfl
  have hn : 0 < st.buf.length := List.length_pos.mpr hb
  have htl : (List.replicate (st.buf.length - 1) st.mask ++
      (if st.buf.getLast? = some '\n' then ['\n'] else [st.mask])).length = st.buf.length := by
    rw [List.length_append, List.length_replicate, hlen1]
    omega
  unfold outputPrint
  rw [if_pos (And.intro hm hb), List.append_assoc, List.drop_left,
    List.append_assoc, List.take_left' htl]

theorem claim_C9_witness :
    ((outputPrint extSample { mkRB ['a', 'b'] 2 with mask := '*' }).drop
        ({ mkRB ['a', 'b'] 2 with mask := '*' } : RBState).prompt.length).take
      ({ mkRB ['a', 'b'] 2 with mask := '*' } : RBState).buf.length = ['*', '*'] := by
  have H := claim_C9_mask_rendering extSample { mkRB ['a', 'b'] 2 with mask := '*' }
    (by decide) (by decide)
  rw [H]
  decide

/-! Frame lemmas: the dispatch switch never touches the escape state. -/

theorem opWrap_escape_state (f : RBState → RBState × Bool) (s : LoopState) :
    (opWrap f s).escaped = s.escaped ∧ (opWrap f s).escBuf = s.escBuf := by
  unfold opWrap bell
  split <;> exact ⟨rfl, rfl⟩

theorem opReturn_escape_state (s : LoopState) :
    (opReturn s).escaped = s.escaped ∧ (opReturn s).escBuf = s.escBuf := by
  unfold opReturn sendLineResult
  dsimp only
  split <;> exact ⟨rfl, rfl⟩

theorem bell_escape_state (s : LoopState) :
    (bell s).escaped = s.escaped ∧ (bell s).escBuf = s.escBuf :=
  ⟨rfl, rfl⟩

theorem processP_escape_state (E : Ext) (p : List Nat) (s : LoopState) :
    (processP E p s).escaped = s.escaped ∧ (processP E p s).escBuf = s.escBuf := by
  cases p with
  | nil => exact ⟨rfl, rfl⟩
  | cons b rest =>
    unfold processP
    dsimp only
    by_cases h01 : b = CharLineStart
    · rw [if_pos h01]; exact opWrap_escape_state _ _
    rw [if_neg h01]
    by_cases h02 : b = CharBackward
    · rw [if_pos h02]; exact opWrap_escape_state _ _
    rw [if_neg h02]
    by_cases h03 : b = CharInterrupt
    · rw [if_pos h03]; exact ⟨rfl, rfl⟩
    rw [if_neg h03]
    by_cases h04 : b = CharDelete
    · rw [if_pos h04]; exact ⟨rfl, rfl⟩
    rw [if_neg h04]
    by_cases h05 : b = CharLineEnd
    · rw [if_pos h05]; exact opWrap_escape_state _ _
    rw [if_neg h05]
    by_cases h06 : b = CharForward
    · rw [if_pos h06]; exact opWrap_escape_state _ _
    rw [if_neg h06]
    by_cases h07 : b = CharBell
    · rw [if_pos h07]; exact ⟨rfl, rfl⟩
    rw [if_neg h07]
    by_cases h08 : b = CharBackspace ∨ b = CharBackspaceEx
    · rw [if_pos h08]; exact opWrap_escape_state _ _
    rw [if_neg h08]
    by_cases h09 : b = CharTab
    · rw [if_pos h09]; exact ⟨rfl, rfl⟩
    rw [if_neg h09]
    by_cases h10 : b = CharFeed ∨ b = CharReturn
    · rw [if_pos h10]; exact opReturn_escape_state _
    rw [if_neg h10]
    by_cases h11 : b = CharKill
    · rw [if_pos h11]; exact opWrap_escape_state _ _
    rw [if_neg h11]
    by_cases h12 : b = CharClear
    · rw [if_pos h12]; exact ⟨rfl, rfl⟩
    rw [if_neg h12]
    by_cases h13 : b = CharNext
    · rw [if_pos h13]; exact ⟨rfl, rfl⟩
    rw [if_neg h13]
    by_cases h14 : b = CharPrev
    · rw [if_pos h14]; exact ⟨rfl, rfl⟩
    rw [if_neg h14]
    by_cases h15 : b = CharBckSearch
    · rw [if_pos h15]; exact ⟨rfl, rfl⟩
    rw [if_neg h15]
    by_cases h16 : b = CharFwdSearch
    · rw [if_pos h16]; exact ⟨rfl, rfl⟩
    rw [if_neg h16]
    by_cases h17 : b = CharTranspose
    · rw [if_pos h17]; exact opWrap_escape_state _ _
    rw [if_neg h17]
    by_cases h18 : b = CharKillFront
    · rw [if_pos h18]; exact opWrap_escape_state _ _
    rw [if_neg h18]
    by_cases h19 : b = CharKillWordFront
    · rw [if_pos h19]; exact opWrap_escape_state _ _
    rw [if_neg h19]
    by_cases h20 : b = CharYank
    · rw [if_pos h20]; exact opWrap_escape_state _ _
    rw [if_neg h20]
    split <;> exact ⟨rfl, rfl⟩

/-- C8: the escape accumulation buffer is bounded by its 16-byte capacity —
the bound is an invariant of every ioloop step and hence of every input byte
stream — and when the buffer fills without a decodable event the loop leaves
escape mode and dispatches ESC followed by the accumulated bytes as ordinary
literal input.  Proven for every decoder abstraction `att`. -/
theorem claim_C8_escape_bound :
    (∀ (E : Ext) (att : EscAttempt) (s : LoopState) (b : Nat),
      InvEsc s → InvEsc (stepByte E att s b)) ∧
    (∀ (E : Ext) (att : EscAttempt) (bs : List Nat) (s : LoopState),
      InvEsc s → InvEsc (runBytes E att bs s)) ∧
    (∀ (E : Ext) (att : EscAttempt) (s : LoopState) (b : Nat),
      s.err = none → s.escaped = true →
      att (s.escBuf ++ [b]) (s.rb, s.insMode) = none →
      (s.escBuf ++ [b]).length = 16 →
      stepByte E att s b =
        processP E (CharEscape :: (s.escBuf ++ [b]))
          { s with escaped := false, escBuf := s.escBuf ++ [b] }) := by
  have hstep : ∀ (E : Ext) (att : EscAttempt) (s : LoopState) (b : Nat),
      InvEsc s → InvEsc (stepByte E att s b) := by
    intro E att s b h
    obtain ⟨h1, h2⟩ := h
    unfold stepByte
    split
    · exact ⟨h1, h2⟩
    · split
      · dsimp only
        split
        · refine ⟨?_, ?_⟩
          · rw [(processP_escape_state _ _ _).2]
            show (if s.escaped then s.escBuf ++ [b] else []).length ≤ 16
            split
            · next hesc =>
              have := h2 hesc
              simp only [List.length_append, List.length_singleton]
              omega
            · decide
          · intro hcontra
            rw [(processP_escape_state _ _ _).1] at hcontra
            simp at hcontra
        · split
          · next hesc =>
            have hlt : s.escBuf.length < 16 := h2 hesc
            split
            · next hlen => exact ⟨le_of_lt hlen, fun _ => hlen⟩
            · refine ⟨?_, ?_⟩
              · rw [(processP_escape_state _ _ _).2]
                show (s.escBuf ++ [b]).length ≤ 16
                simp only [List.length_append, List.length_singleton]
                omega
              · intro hcontra
                rw [(processP_escape_state _ _ _).1] at hcontra
                simp at hcontra
          · split
            · next hlen => exact ⟨by simp, fun _ => by simp⟩
            · refine ⟨?_, ?_⟩
              · rw [(processP_escape_state _ _ _).2]
                show ([] : List Nat).length ≤ 16
                decide
              · intro hcontra
                rw [(processP_escape_state _ _ _).1] at hcontra
                simp at hcontra
      · refine ⟨?_, ?_⟩
        · rw [(processP_escape_state _ _ _).2]
          exact h1
        · intro hcontra
          rw [(processP_escape_state _ _ _).1] at hcontra
          rw [(processP_escape_state _ _ _).2]
          exact h2 hcontra
  refine ⟨hstep, ?_, ?_⟩
  · intro E att bs
    induction bs with
    | nil => exact fun s h => h
    | cons b rest ih =>
      intro s h
      exact ih (stepByte E att s b) (hstep E att s b h)
  · intro E att s b herr hesc hatt hlen
    unfold stepByte
    rw [if_neg (by simp [herr]), if_pos (Or.inr hesc)]
    dsimp only
    rw [if_pos hesc, hatt]
    dsimp only
    rw [if_neg (by omega)]

theorem claim_C8_witness :
    InvEsc (runBytes extSample attNone [27, 91, 65] initLoop) :=
  claim_C8_escape_bound.2.1 extSample attNone [27, 91, 65] initLoop
    ⟨by decide, by decide⟩

/-- C2: starting from an empty buffer, feeding the session loop the bytes
'a', 'b', Ctrl-B, 'c', Enter publishes exactly one line result, the line
"acb" with no error, and leaves the buffer cleared (empty, cursor 0) with the
loop still running. -/
theorem claim_C2_end_to_end :
    (runBytes extSample attNone [0x61, 0x62, 0x02, 0x63, 0x0D] initLoop).sent =
      [{ line := ['a', 'c', 'b'], err := none }] ∧
    (runBytes extSample attNone [0x61, 0x62, 0x02, 0x63, 0x0D] initLoop).rb.buf = [] ∧
    (runBytes extSample attNone [0x61, 0x62, 0x02, 0x63, 0x0D] initLoop).rb.idx = 0 ∧
    (runBytes extSample attNone [0x61, 0x62, 0x02, 0x63, 0x0D] initLoop).err = none := by
  decide

end Readline
